import Mathlib

/-
Verification of the goreader character reader (reader.go) against its
natural-language specification.

The embedding models:
  * `Position`, `Char`, `State` (reader.go data types);
  * the external checkpointable buffer `gobuffer.Buffer` through the narrow
    contract the spec gives for it (append, peek-without-removing, pending
    count, advance, snapshot, restore, discard-history);
  * the `bufio.Reader` rune source together with the reader's position
    tracker as a sub-state `Src`: a list of pending runes, a one-level
    push-back stack, a terminal condition (EOF or a repeating I/O error)
    and the next-rune position. The Go methods `readRune`, `unreadRune`,
    `step` and `newline` touch only these fields of `Reader`, so they are
    modelled on `Src`; the transforms, which in Go receive the `*Reader`
    but only ever call those four methods, consequently act on `Src`,
    making it a type-level fact that a transform never touches the
    lookahead buffer;
  * the three transforms (newline normalization, unicode escape, rune
    escape) and the reader orchestrator (`Next`, `Consume`, `State`,
    `Rollback`, `Commit`).

Runes are modelled as natural-number code points; Go `int` positions are
modelled as `Int`.
-/

namespace GoReader

/-- Position (reader.go): the position in a two-dimensional space of rows and
columns. Go ints are modelled as `Int`. -/
structure Position where
  Row : Int
  Col : Int
deriving DecidableEq, Repr

/-- Char (reader.go): a rune read by the Reader together with its source
position and an escaped indication. -/
structure Char where
  Rune : Nat
  Pos : Position
  Escaped : Bool
deriving DecidableEq, Repr

/-- Errors surfaced by the reader: the distinguished unwrapped end-of-stream
condition (io.EOF), a positional error (goerrors.NewPositionalError with a
row, a column and a message), or a plain unwrapped error message. -/
inductive RdError where
  | eof
  | positional (row col : Int) (msg : String)
  | plain (msg : String)
deriving DecidableEq, Repr

/-- Errors returned by the buffer rollback (gobuffer.ZeroStateError and
gobuffer.IllegalStateError). -/
inductive BufErr where
  | zeroState
  | illegalState
deriving DecidableEq, Repr

/-- Modelled from the spec: the external checkpointable lookahead buffer
`gobuffer.Buffer` (spec section 6), which is not part of this repository.
`elems` are the retained already-transformed Chars oldest first, `cursor` is
the read cursor into `elems`, and `base` counts elements discarded by
commits, so `base + cursor` is the absolute index used as a snapshot. -/
structure Buffer where
  elems : List Char
  cursor : Nat
  base : Nat
deriving DecidableEq, Repr

/-- Modelled from the spec: snapshot of the buffer read cursor
(gobuffer.State). The `valid` flag distinguishes a snapshot obtained from
the buffer from the always-invalid zero value. -/
structure BufState where
  idx : Nat
  valid : Bool
deriving DecidableEq, Repr

/-- State (reader.go): a reader state for State/Rollback, wrapping the
buffer snapshot. -/
structure State where
  bufState : BufState
deriving DecidableEq, Repr

/-- The Go zero value of `State` (never obtained from `Reader.State`). -/
def zeroState : State := ⟨⟨0, false⟩⟩

/-- Wrap a buffer snapshot in a reader `State`. -/
def mkState (b : BufState) : State := ⟨b⟩

/-- Modelled from the spec: number of pending (produced, not yet consumed)
elements (gobuffer `Buffered`, spec `pendingCount`). -/
def Buffer.Buffered (b : Buffer) : Nat := b.elems.length - b.cursor

/-- Modelled from the spec: append an element (gobuffer `Write`). -/
def Buffer.Write (b : Buffer) (c : Char) : Buffer :=
  { b with elems := b.elems ++ [c] }

/-- Modelled from the spec: return the current front element without
removing it (gobuffer `Next`, spec `frontWithoutRemoving`). -/
def Buffer.Next (b : Buffer) : Option Char := b.elems.get? b.cursor

/-- Modelled from the spec: advance the read cursor past the current front
element (gobuffer `Consume`, spec `advance`). -/
def Buffer.Consume (b : Buffer) : Buffer :=
  if b.cursor < b.elems.length then { b with cursor := b.cursor + 1 } else b

/-- Modelled from the spec: snapshot of the current read cursor (gobuffer
`State`), an absolute index/generation value. -/
def Buffer.State (b : Buffer) : BufState := ⟨b.base + b.cursor, true⟩

/-- Modelled from the spec: restore the read cursor to a snapshot (gobuffer
`Rollback`); a zero state is rejected with `zeroState`, a snapshot whose
history was discarded (or that is otherwise out of range) with
`illegalState`. -/
def Buffer.Rollback (b : Buffer) (s : BufState) : Except BufErr Buffer :=
  if s.valid = false then .error .zeroState
  else if s.idx < b.base ∨ b.base + b.elems.length < s.idx then .error .illegalState
  else .ok { b with cursor := s.idx - b.base }

/-- Modelled from the spec: discard elements strictly before the read
cursor (gobuffer `Commit`). -/
def Buffer.Commit (b : Buffer) : Buffer :=
  ⟨b.elems.drop b.cursor, 0, b.base + b.cursor⟩

/-- The source-and-position sub-state of the Reader (reader.go fields
`reader` and `pos`): `runes` are the source runes not yet read; `readRev`
the runes already read, most recent first (backing the one-level
`UnreadRune` push-back); `canUnread` tells whether the last source
operation was a successful `ReadRune` (bufio requires this for
`UnreadRune`); `srcErr` is the terminal condition after `runes` runs out:
`none` for EOF, `some msg` for a repeating I/O error from the underlying
reader; `pos` is the position of the next rune. -/
structure Src where
  runes : List Nat
  readRev : List Nat
  canUnread : Bool
  srcErr : Option String
  pos : Position
deriving DecidableEq, Repr

/-- step (reader.go): return the position before applying the column delta,
then apply it, clamping at a negative column by retreating one row. -/
def Src.step (s : Src) (i : Int) : Position × Src :=
  if s.pos.Col + i < 0 then
    (s.pos, { s with pos := ⟨if s.pos.Row > 0 then s.pos.Row - 1 else s.pos.Row, 0⟩ })
  else
    (s.pos, { s with pos := ⟨s.pos.Row, s.pos.Col + i⟩ })

/-- newline (reader.go): bump the next-rune position to the start of the
next row. -/
def Src.newline (s : Src) : Src :=
  { s with pos := ⟨s.pos.Row + 1, 1⟩ }

/-- Result of a low-level source read (reader.go `readRune`): the rune with
its position, end of stream, or a source failure message, each paired with
the successor source state. -/
inductive ReadResult where
  | ok (ru : Nat) (pos : Position)
  | eof (pos : Position)
  | fail (msg : String) (pos : Position)
deriving DecidableEq, Repr

/-- readRune (reader.go): read one rune from the source; on success the
returned position is the position before stepping the column forward; on
an error the current position is returned and the position is unchanged. A
successful read records the rune for push-back; a failed read closes the
bufio push-back window. -/
def Src.readRune (s : Src) : ReadResult × Src :=
  match s.runes with
  | ru :: rest =>
      (.ok ru s.pos,
        (Src.step { s with runes := rest, readRev := ru :: s.readRev, canUnread := true } 1).2)
  | [] =>
      match s.srcErr with
      | none => (.eof s.pos, { s with canUnread := false })
      | some msg => (.fail msg s.pos, { s with canUnread := false })

/-- unreadRune (reader.go): push back the most recently read rune (bufio
`UnreadRune`, one level only) and retreat the position tracker one step;
the position retreat happens even when the push-back itself fails. -/
def Src.unreadRune (s : Src) : Option String × Src :=
  match s.canUnread, s.readRev with
  | true, ru :: rest =>
      (none,
        (Src.step { s with runes := ru :: s.runes, readRev := rest, canUnread := false } (-1)).2)
  | _, _ =>
      (some "bufio: invalid use of UnreadRune", (Src.step s (-1)).2)

/-- normalizeNewline.Transform (reader.go): NL passes through bumping the
row; CR is replaced by NL, the row is bumped, and the following rune is
peeked: EOF emits with no error, a following NL is swallowed with a single
position retreat, anything else is pushed back to the source. -/
def normalizeNewlineT (s : Src) (c : Char) : Except RdError Char × Src :=
  if c.Rune = 10 then
    (.ok c, s.newline)
  else if c.Rune = 13 then
    match (s.newline).readRune with
    | (.eof _, s2) => (.ok { c with Rune := 10 }, s2)
    | (.fail msg pos, s2) =>
        (.error (.positional pos.Row pos.Col ("error reading rune from source: " ++ msg)), s2)
    | (.ok ru pos, s2) =>
        if ru = 10 then
          (.ok { c with Rune := 10 }, (s2.step (-1)).2)
        else
          match s2.unreadRune with
          | (none, s3) => (.ok { c with Rune := 10 }, s3)
          | (some msg, s3) =>
              (.error (.positional pos.Row pos.Col ("error unreading rune from source: " ++ msg)), s3)
  else
    (.ok c, s)

/-- Hexadecimal digit value of a rune (strconv's unhex): 0-9, a-f, A-F. -/
def hexVal (ru : Nat) : Option Nat :=
  if 48 ≤ ru ∧ ru ≤ 57 then some (ru - 48)
  else if 97 ≤ ru ∧ ru ≤ 102 then some (ru - 97 + 10)
  else if 65 ≤ ru ∧ ru ≤ 70 then some (ru - 65 + 10)
  else none

/-- Models strconv.Unquote applied to the built literal `'\uXXXX'`: the
four runes must all be hexadecimal digits and the resulting value must be a
valid rune, which for a 16-bit value means it is not a UTF-16 surrogate
half (strconv rejects surrogates via utf8.ValidRune with ErrSyntax);
otherwise strconv reports "invalid syntax". -/
def unquoteU4 (d1 d2 d3 d4 : Nat) : Option Nat :=
  match hexVal d1, hexVal d2, hexVal d3, hexVal d4 with
  | some a, some b, some c, some d =>
      let v := ((a * 16 + b) * 16 + c) * 16 + d
      if 55296 ≤ v ∧ v ≤ 57343 then none else some v
  | _, _, _, _ => none

/-- The unicode escape literal as typed, `'\uXXXX'`, rebuilt from the four
runes read (strings.Builder in reader.go). -/
def escLiteral (d1 d2 d3 d4 : Nat) : String :=
  "'\\u" ++ String.mk [Char.ofNat d1, Char.ofNat d2, Char.ofNat d3, Char.ofNat d4] ++ "'"

/-- One rune read inside the unicode escape digit loop (reader.go lines
325-334): EOF and source failures are positioned at the original backslash
position `cpos`. -/
def readEscDigit (s : Src) (cpos : Position) : Except RdError Nat × Src :=
  match s.readRune with
  | (.eof _, s') =>
      (.error (.positional cpos.Row cpos.Col "unexpected EOF reading unicode escape"), s')
  | (.fail msg _, s') =>
      (.error (.positional cpos.Row cpos.Col ("error reading rune from source: " ++ msg)), s')
  | (.ok ru _, s') => (.ok ru, s')

/-- unicodeEscape.Transform (reader.go): on a backslash, peek one rune (EOF
here is positioned at the peeked rune's position); a non-`u` rune is pushed
back and the backslash emitted unchanged; after `u`, four runes are read
(EOF positioned at the backslash) and parsed as a 4-digit hexadecimal code
point via strconv.Unquote; on success the emitted rune is replaced, on
parse failure a positional error naming the literal as typed is returned. -/
def unicodeEscapeT (s : Src) (c : Char) : Except RdError Char × Src :=
  if c.Rune ≠ 92 then (.ok c, s)
  else
    match s.readRune with
    | (.eof pos, s1) =>
        (.error (.positional pos.Row pos.Col "unexpected EOF reading unicode escape"), s1)
    | (.fail msg pos, s1) =>
        (.error (.positional pos.Row pos.Col ("error reading rune from source: " ++ msg)), s1)
    | (.ok ru pos, s1) =>
        if ru ≠ 117 then
          match s1.unreadRune with
          | (none, s2) => (.ok c, s2)
          | (some msg, s2) =>
              (.error (.positional pos.Row pos.Col ("error unreading rune from source: " ++ msg)), s2)
        else
          match readEscDigit s1 c.Pos with
          | (.error e, s2) => (.error e, s2)
          | (.ok d1, s2) =>
            match readEscDigit s2 c.Pos with
            | (.error e, s3) => (.error e, s3)
            | (.ok d2, s3) =>
              match readEscDigit s3 c.Pos with
              | (.error e, s4) => (.error e, s4)
              | (.ok d3, s4) =>
                match readEscDigit s4 c.Pos with
                | (.error e, s5) => (.error e, s5)
                | (.ok d4, s5) =>
                  match unquoteU4 d1 d2 d3 d4 with
                  | none =>
                      (.error (.positional c.Pos.Row c.Pos.Col
                        ("error parsing unicode escaped rune " ++ escLiteral d1 d2 d3 d4
                          ++ ": invalid syntax")), s5)
                  | some v => (.ok { c with Rune := v }, s5)

/-- Lookup in the rune-escape map (Go map indexing with ok flag). -/
def lookupEsc : List (Nat × Nat) → Nat → Option Nat
  | [], _ => none
  | (k, v) :: rest, ru => if k = ru then some v else lookupEsc rest ru

/-- runeEscape.Transform (reader.go): on a backslash, read one rune (EOF is
an error positioned at the backslash), replace it through the escape map
when present (otherwise keep it as read) and mark the Char escaped. -/
def runeEscapeT (m : List (Nat × Nat)) (s : Src) (c : Char) : Except RdError Char × Src :=
  if c.Rune ≠ 92 then (.ok c, s)
  else
    match s.readRune with
    | (.eof _, s1) =>
        (.error (.positional c.Pos.Row c.Pos.Col "unexpected EOF reading rune escape"), s1)
    | (.fail msg _, s1) =>
        (.error (.positional c.Pos.Row c.Pos.Col ("error reading rune from source: " ++ msg)), s1)
    | (.ok ru _, s1) =>
        (.ok { c with Rune := (lookupEsc m ru).getD ru, Escaped := true }, s1)

/-- The installed transformers (reader.go `transformer` interface with the
three implementations `normalizeNewline`, `unicodeEscape`, `runeEscape`).
The rune-escape map is modelled as an association list. -/
inductive Transformer where
  | normalizeNewline
  | unicodeEscape
  | runeEscape (escapes : List (Nat × Nat))
deriving DecidableEq, Repr

/-- Dispatch a transformer (reader.go `transformer.Transform`). -/
def Transformer.run : Transformer → Src → Char → Except RdError Char × Src
  | .normalizeNewline, s, c => normalizeNewlineT s c
  | .unicodeEscape, s, c => unicodeEscapeT s c
  | .runeEscape m, s, c => runeEscapeT m s c

/-- The transformer loop of bufferChar (reader.go lines 217-222): apply the
transformers in order, stopping at the first error. -/
def applyTransforms : List Transformer → Src → Char → Except RdError Char × Src
  | [], s, c => (.ok c, s)
  | t :: ts, s, c =>
    match t.run s c with
    | (.ok c', s') => applyTransforms ts s' c'
    | (.error e, s') => (.error e, s')

/-- Reader (reader.go): the orchestrator, owning the source-and-position
sub-state, the lookahead buffer and the installed transformers. -/
structure Reader where
  src : Src
  buffer : Buffer
  transformers : List Transformer
deriving DecidableEq, Repr

/-- bufferChar (reader.go): read one raw rune (EOF stays unwrapped, other
source failures are wrapped with the rune position), run it through the
transformer pipeline and append the transformed Char to the buffer. -/
def Reader.bufferChar (r : Reader) : Option RdError × Reader :=
  match r.src.readRune with
  | (.eof _, s1) => (some .eof, { r with src := s1 })
  | (.fail msg pos, s1) =>
      (some (.positional pos.Row pos.Col ("error reading rune from source: " ++ msg)),
        { r with src := s1 })
  | (.ok ru pos, s1) =>
      match applyTransforms r.transformers s1 ⟨ru, pos, false⟩ with
      | (.error e, s2) => (some e, { r with src := s2 })
      | (.ok c, s2) => (none, { r with src := s2, buffer := r.buffer.Write c })

/-- Next (reader.go): when the buffer has no pending element, pull one
transformed Char from the source into the buffer; then return the buffer
front without removing it. -/
def Reader.Next (r : Reader) : Except RdError Char × Reader :=
  match (if r.buffer.Buffered = 0 then r.bufferChar else (none, r) : Option RdError × Reader) with
  | (some e, r1) => (.error e, r1)
  | (none, r1) =>
    match r1.buffer.Next with
    | some c => (.ok c, r1)
    | none => (.error (.plain "unexpected empty buffer"), r1)

/-- Consume (reader.go): advance the buffer past the current next
element. -/
def Reader.Consume (r : Reader) : Reader :=
  { r with buffer := r.buffer.Consume }

/-- State (reader.go): snapshot of the current read state. -/
def Reader.State (r : Reader) := mkState r.buffer.State

/-- Rollback (reader.go): restore the buffer read cursor to a snapshot. -/
def Reader.Rollback (r : Reader) (s : GoReader.State) : Except BufErr Reader :=
  match r.buffer.Rollback s.bufState with
  | .ok b => .ok { r with buffer := b }
  | .error e => .error e

/-- Commit (reader.go): discard consumed history from the buffer. -/
def Reader.Commit (r : Reader) : Reader :=
  { r with buffer := r.buffer.Commit }

/-- A freshly built reader (Builder.WithSource / New): start position is
(1,1), the buffer is empty, the given transformers are installed, and the
source holds `runes` followed by the terminal condition `srcErr` (`none`
for a normal end of stream). -/
def mkReader (runes : List Nat) (srcErr : Option String) (ts : List Transformer) : Reader :=
  { src := { runes := runes, readRev := [], canUnread := false, srcErr := srcErr, pos := ⟨1, 1⟩ },
    buffer := ⟨[], 0, 0⟩, transformers := ts }

/-- A caller-visible operation: a `Next` call or a `Consume` call. -/
inductive Op where
  | next
  | consume
deriving DecidableEq, Repr

/-- The observable outcome of one operation: the Char returned by a
successful `Next`, the error returned by a failed `Next`, or the (void)
return of `Consume`. -/
inductive Out where
  | char (c : Char)
  | err (e : RdError)
  | unit
deriving DecidableEq, Repr

/-- Run a sequence of Next/Consume calls, collecting each call's outcome. -/
def runOps (r : Reader) : List Op → Reader × List Out
  | [] => (r, [])
  | .next :: ops =>
    let (res, r1) := r.Next
    let (r2, outs) := runOps r1 ops
    (r2, (match res with | .ok c => Out.char c | .error e => Out.err e) :: outs)
  | .consume :: ops =>
    let (r2, outs) := runOps r.Consume ops
    (r2, Out.unit :: outs)

/-- The Char values among a run's outcomes, in order. -/
def charsOf : List Out → List Char
  | [] => []
  | .char c :: l => c :: charsOf l
  | .err _ :: l => charsOf l
  | .unit :: l => charsOf l

/-- The errors among a run's outcomes, in order. -/
def errsOf : List Out → List RdError
  | [] => []
  | .char _ :: l => errsOf l
  | .err e :: l => e :: errsOf l
  | .unit :: l => errsOf l

/-- Row-major strict order on positions: later row, or same row with a
later column. -/
def posLt (p q : Position) : Prop :=
  p.Row < q.Row ∨ (p.Row = q.Row ∧ p.Col < q.Col)

instance (p q : Position) : Decidable (posLt p q) := by
  unfold posLt
  infer_instance

theorem posLt_trans {p q s : Position} (h1 : posLt p q) (h2 : posLt q s) : posLt p s := by
  rcases h1 with h1 | ⟨e1, l1⟩ <;> rcases h2 with h2 | ⟨e2, l2⟩ <;>
    unfold posLt <;> omega

instance : IsTrans Position posLt := ⟨fun _ _ _ => posLt_trans⟩

/-- Row-major non-strict order on positions. -/
def posLe (p q : Position) : Prop := posLt p q ∨ p = q

theorem posLe_refl (p : Position) : posLe p p := Or.inr rfl

theorem posLt_of_lt_of_le {p q s : Position} (h1 : posLt p q) (h2 : posLe q s) : posLt p s := by
  rcases h2 with h2 | rfl
  · exact posLt_trans h1 h2
  · exact h1

theorem posLe_trans {p q s : Position} (h1 : posLe p q) (h2 : posLe q s) : posLe p s := by
  rcases h1 with h1 | rfl
  · exact Or.inl (posLt_of_lt_of_le h1 h2)
  · exact h2

/-- A buffer whose front exists has a pending element. -/
theorem Buffered_pos_of_front {b : Buffer} {c : Char} (h : b.Next = some c) :
    b.Buffered ≠ 0 := by
  unfold Buffer.Next at h
  unfold Buffer.Buffered
  rcases List.get?_eq_some.mp h with ⟨hlt, _⟩
  omega

/-- When the buffer already has a front element, `Next` returns it and
leaves the reader unchanged. -/
theorem front_next {r : Reader} {c : Char} (h : r.buffer.Next = some c) :
    r.Next = (.ok c, r) := by
  unfold Reader.Next
  rw [if_neg (Buffered_pos_of_front h)]
  simp [h]

/-- A successful `Next` leaves the returned Char at the buffer front of the
resulting reader. -/
theorem next_ok_front {r r1 : Reader} {c : Char} (h : r.Next = (.ok c, r1)) :
    r1.buffer.Next = some c := by
  unfold Reader.Next at h
  split at h
  · simp at h
  · rename_i r' heq
    split at h
    · rename_i c' hn
      obtain ⟨hc, hr⟩ := Prod.mk.injEq .. ▸ h
      simp only [Except.ok.injEq] at hc
      subst hr
      rw [hn, hc]
    · simp at h

/-- An error produced inside the unicode escape digit loop is always
positional. -/
theorem readEscDigit_err_shape {s : Src} {p : Position} {e : RdError} {s1 : Src}
    (h : readEscDigit s p = (.error e, s1)) :
    ∃ row col msg, e = .positional row col msg := by
  unfold readEscDigit at h
  split at h <;> simp only [Prod.mk.injEq, Except.error.injEq] at h
  · exact ⟨_, _, _, h.1.symm⟩
  · exact ⟨_, _, _, h.1.symm⟩
  · exact absurd h.1 (by simp)

/-- A transformer either succeeds or fails with a positional error; in
particular it never produces the unwrapped end-of-stream condition. -/
theorem transformer_run_shape (t : Transformer) (s : Src) (c : Char) :
    (∃ c1, (t.run s c).1 = .ok c1) ∨
      ∃ row col msg, (t.run s c).1 = .error (.positional row col msg) := by
  cases t <;> simp only [Transformer.run]
  · unfold normalizeNewlineT
    repeat' split
    all_goals first
      | exact Or.inl ⟨_, rfl⟩
      | exact Or.inr ⟨_, _, _, rfl⟩
  · unfold unicodeEscapeT
    repeat' split
    all_goals try exact Or.inl ⟨_, rfl⟩
    all_goals try exact Or.inr ⟨_, _, _, rfl⟩
    all_goals
      rename_i heq
      obtain ⟨row, col, msg, rfl⟩ := readEscDigit_err_shape heq
      exact Or.inr ⟨_, _, _, rfl⟩
  · unfold runeEscapeT
    repeat' split
    all_goals first
      | exact Or.inl ⟨_, rfl⟩
      | exact Or.inr ⟨_, _, _, rfl⟩

/-- An error escaping the transformer pipeline is always positional. -/
theorem applyTransforms_err_shape {ts : List Transformer} {s : Src} {c : Char}
    {e : RdError} {s1 : Src} (h : applyTransforms ts s c = (.error e, s1)) :
    ∃ row col msg, e = .positional row col msg := by
  induction ts generalizing s c with
  | nil => simp [applyTransforms] at h
  | cons t ts ih =>
    unfold applyTransforms at h
    split at h
    · exact ih h
    · rename_i e1 s2 heq
      rcases transformer_run_shape t s c with ⟨c1, hok⟩ | ⟨row, col, msg, herr⟩
      · rw [heq] at hok
        simp at hok
      · rw [heq] at herr
        simp only [Except.error.injEq] at herr
        simp only [Prod.mk.injEq, Except.error.injEq] at h
        exact ⟨row, col, msg, h.1 ▸ herr⟩

/-- `bufferChar` reports end of stream exactly when the raw source read
does, leaving the reader unchanged apart from closing the bufio push-back
window; in particular the buffer is untouched. -/
theorem bufferChar_eof {r r1 : Reader} (h : r.bufferChar = (some .eof, r1)) :
    r.src.runes = [] ∧ r.src.srcErr = none ∧
      r1 = { r with src := { r.src with canUnread := false } } := by
  rcases r with ⟨⟨runes, readRev, canUnread, srcErr, pos⟩, buffer, ts⟩
  rcases runes with _ | ⟨ru, rest⟩
  · rcases srcErr with _ | msg
    · refine ⟨rfl, rfl, ?_⟩
      have h1 : (some RdError.eof,
          ({ src := ⟨[], readRev, false, none, pos⟩, buffer := buffer,
             transformers := ts } : Reader)) = (some RdError.eof, r1) := h
      simpa using (congrArg Prod.snd h1).symm
    · simp [Reader.bufferChar, Src.readRune] at h
  · exfalso
    simp only [Reader.bufferChar, Src.readRune] at h
    split at h
    · rename_i e s2 heq
      simp only [Prod.mk.injEq, Option.some.injEq] at h
      obtain ⟨row, col, msg, hsh⟩ := applyTransforms_err_shape heq
      rw [hsh] at h
      exact absurd h.1 (by simp)
    · simp at h

/-- `Next` returns the end-of-stream condition only by pulling, with no
pending element. -/
theorem next_eof {r r1 : Reader} (h : r.Next = (.error .eof, r1)) :
    r.buffer.Buffered = 0 ∧ r.bufferChar = (some .eof, r1) := by
  unfold Reader.Next at h
  by_cases hb : r.buffer.Buffered = 0
  · rw [if_pos hb] at h
    rcases hbc : r.bufferChar with ⟨oe, r2⟩
    rw [hbc] at h
    match oe with
    | some e =>
      simp only [Prod.mk.injEq, Except.error.injEq] at h
      obtain ⟨he, hr⟩ := h
      subst he
      subst hr
      exact ⟨hb, rfl⟩
    | none =>
      simp only at h
      split at h <;> simp at h
  · rw [if_neg hb] at h
    simp only at h
    split at h <;> simp at h

/-- C8, end-of-stream repeats: when `Next` returns the distinguished
unwrapped end-of-stream condition, the very next `Next` call returns the
same end-of-stream condition again with an unchanged reader; observing end
of stream does not consume it and does not move the reader into a distinct
broken state, so it repeats on every subsequent call. -/
theorem eof_repeats {r r1 : Reader} (h : r.Next = (.error .eof, r1)) :
    r1.Next = (.error .eof, r1) := by
  obtain ⟨hb, hbc⟩ := next_eof h
  obtain ⟨hrunes, herr, hr1⟩ := bufferChar_eof hbc
  rcases r with ⟨⟨runes, readRev, canUnread, srcErr, pos⟩, buffer, ts⟩
  simp only at hrunes herr
  subst hrunes herr hr1
  unfold Reader.Next
  rw [if_pos hb]
  unfold Reader.bufferChar Src.readRune
  rfl

/-- Witness for C8 at the concrete empty source. -/
theorem eof_repeats_witness :
    (mkReader [] none []).Next = (.error .eof, mkReader [] none []) ∧
      (mkReader [] none []).Next = (.error .eof, mkReader [] none []) :=
  ⟨rfl, eof_repeats (r := mkReader [] none []) rfl⟩

/-- `step` with a non-negative resulting column just moves the column. -/
theorem step_pos {s : Src} (i : Int) (h : 0 ≤ s.pos.Col + i) :
    s.step i = (s.pos, { s with pos := ⟨s.pos.Row, s.pos.Col + i⟩ }) := by
  unfold Src.step
  rw [if_neg (by omega)]

/-- `readRune` on a non-empty source returns the head rune at the current
position, records it for push-back and advances the column. -/
theorem readRune_cons {s : Src} {ru : Nat} {rest : List Nat} (h : s.runes = ru :: rest)
    (hc : 0 ≤ s.pos.Col) :
    s.readRune = (.ok ru s.pos,
      { s with runes := rest, readRev := ru :: s.readRev, canUnread := true,
               pos := ⟨s.pos.Row, s.pos.Col + 1⟩ }) := by
  unfold Src.readRune
  rw [h]
  dsimp only
  rw [step_pos (s := { s with runes := rest, readRev := ru :: s.readRev, canUnread := true }) 1
    (by show 0 ≤ s.pos.Col + 1; omega)]

/-- `readRune` on an exhausted source with no pending I/O error reports end
of stream, changing only the push-back window. -/
theorem readRune_nil_eof {s : Src} (h : s.runes = []) (hs : s.srcErr = none) :
    s.readRune = (.eof s.pos, { s with canUnread := false }) := by
  unfold Src.readRune
  rw [h]
  dsimp only
  rw [hs]

/-- The newline-normalization transform on a line-feed Char: emitted
unchanged, position bumped to the start of the next row. -/
theorem nlT_lf (s : Src) (c : Char) (hcr : c.Rune = 10) (hrow : s.pos.Row = c.Pos.Row) :
    normalizeNewlineT s c = (.ok c, { s with pos := ⟨c.Pos.Row + 1, 1⟩ }) := by
  unfold normalizeNewlineT
  rw [if_pos hcr]
  unfold Src.newline
  rw [hrow]

/-- The newline-normalization transform on a carriage-return Char at the
end of the stream: a line-feed Char is emitted with no error. -/
theorem nlT_cr_eof (s : Src) (c : Char) (hcr : c.Rune = 13) (hrow : s.pos.Row = c.Pos.Row)
    (hr : s.runes = []) (hs : s.srcErr = none) :
    normalizeNewlineT s c =
      (.ok { c with Rune := 10 }, { s with canUnread := false, pos := ⟨c.Pos.Row + 1, 1⟩ }) := by
  unfold normalizeNewlineT
  rw [if_neg (by rw [hcr]; decide), if_pos hcr]
  rw [readRune_nil_eof (s := s.newline) (by simpa [Src.newline] using hr)
    (by simpa [Src.newline] using hs)]
  simp [Src.newline, hrow]

/-- The newline-normalization transform on a carriage-return Char followed
by a line-feed: the line-feed is swallowed (consumed from the source, not
pushed back) and its position advance is cancelled. -/
theorem nlT_swallow (s : Src) (c : Char) (rest : List Nat) (hcr : c.Rune = 13)
    (hrow : s.pos.Row = c.Pos.Row) (hr : s.runes = 10 :: rest) :
    normalizeNewlineT s c =
      (.ok { c with Rune := 10 },
        { s with runes := rest, readRev := 10 :: s.readRev, canUnread := true,
                 pos := ⟨c.Pos.Row + 1, 1⟩ }) := by
  unfold normalizeNewlineT
  rw [if_neg (by rw [hcr]; decide), if_pos hcr]
  rw [readRune_cons (s := s.newline) (by simpa [Src.newline] using hr) (by simp [Src.newline])]
  simp only [Src.newline]
  rw [step_pos (-1) (by simp)]
  simp [hrow]

/-- The newline-normalization transform on a carriage-return Char followed
by any other rune: that rune is pushed back to the source and will be read
again at its original position. -/
theorem nlT_pushback (s : Src) (c : Char) (x : Nat) (rest : List Nat) (hcr : c.Rune = 13)
    (hrow : s.pos.Row = c.Pos.Row) (hr : s.runes = x :: rest) (hx : x ≠ 10) :
    normalizeNewlineT s c =
      (.ok { c with Rune := 10 }, { s with canUnread := false, pos := ⟨c.Pos.Row + 1, 1⟩ }) := by
  unfold normalizeNewlineT
  rw [if_neg (by rw [hcr]; decide), if_pos hcr]
  rw [readRune_cons (s := s.newline) (by simpa [Src.newline] using hr)
    (by show (0 : Int) ≤ 1; decide)]
  dsimp only
  rw [if_neg hx]
  unfold Src.unreadRune
  dsimp only
  rw [step_pos (-1) (by show (0 : Int) ≤ 1 + 1 + -1; decide)]
  simp [Src.newline, hrow, ← hr]

/-- C3, newline normalization: with the transform installed, a line-feed is
emitted as-is and a carriage-return is emitted as a single line-feed Char
carrying the carriage-return's position; a following line-feed is
swallowed, consumed from the source without being pushed back, its position
advance cancelled; end of stream right after the carriage-return emits the
line-feed Char with no error; any other following rune is pushed back and
read again as the next independent raw rune; in every case the next Char's
position after an emitted newline at (r, c) is (r+1, 1); and the source
"ab\nc" yields 'a' (1,1), 'b' (1,2), the newline (1,3), 'c' (2,1), then
end of stream. -/
theorem normalizeNewline_spec :
    (∀ (s : Src) (c : Char), c.Rune = 10 → s.pos.Row = c.Pos.Row →
      normalizeNewlineT s c = (.ok c, { s with pos := ⟨c.Pos.Row + 1, 1⟩ })) ∧
    (∀ (s : Src) (c : Char), c.Rune = 13 → s.pos.Row = c.Pos.Row →
      s.runes = [] → s.srcErr = none →
      normalizeNewlineT s c =
        (.ok { c with Rune := 10 },
          { s with canUnread := false, pos := ⟨c.Pos.Row + 1, 1⟩ })) ∧
    (∀ (s : Src) (c : Char) (rest : List Nat), c.Rune = 13 → s.pos.Row = c.Pos.Row →
      s.runes = 10 :: rest →
      normalizeNewlineT s c =
        (.ok { c with Rune := 10 },
          { s with runes := rest, readRev := 10 :: s.readRev, canUnread := true,
                   pos := ⟨c.Pos.Row + 1, 1⟩ })) ∧
    (∀ (s : Src) (c : Char) (x : Nat) (rest : List Nat), c.Rune = 13 → s.pos.Row = c.Pos.Row →
      s.runes = x :: rest → x ≠ 10 →
      normalizeNewlineT s c =
        (.ok { c with Rune := 10 },
          { s with canUnread := false, pos := ⟨c.Pos.Row + 1, 1⟩ })) ∧
    (runOps (mkReader [97, 98, 10, 99] none [.normalizeNewline])
        [.next, .consume, .next, .consume, .next, .consume, .next, .consume, .next]).2 =
      [.char ⟨97, ⟨1, 1⟩, false⟩, .unit, .char ⟨98, ⟨1, 2⟩, false⟩, .unit,
        .char ⟨10, ⟨1, 3⟩, false⟩, .unit, .char ⟨99, ⟨2, 1⟩, false⟩, .unit, .err .eof] :=
  ⟨nlT_lf, nlT_cr_eof, nlT_swallow, nlT_pushback, rfl⟩

/-- Witness for C3 at a concrete carriage-return + line-feed pair. -/
theorem normalizeNewline_spec_witness :
    normalizeNewlineT ⟨[10, 97], [13], true, none, ⟨2, 4⟩⟩ ⟨13, ⟨2, 3⟩, false⟩ =
      (.ok ⟨10, ⟨2, 3⟩, false⟩, ⟨[97], [10, 13], true, none, ⟨3, 1⟩⟩) :=
  normalizeNewline_spec.2.2.1 ⟨[10, 97], [13], true, none, ⟨2, 4⟩⟩ ⟨13, ⟨2, 3⟩, false⟩ [97]
    rfl rfl rfl

/-- A digit read inside the unicode escape on a non-empty source. -/
theorem readEscDigit_cons {s : Src} {ru : Nat} {rest : List Nat} (p : Position)
    (h : s.runes = ru :: rest) (hc : 0 ≤ s.pos.Col) :
    readEscDigit s p = (.ok ru,
      { s with runes := rest, readRev := ru :: s.readRev, canUnread := true,
               pos := ⟨s.pos.Row, s.pos.Col + 1⟩ }) := by
  unfold readEscDigit
  rw [readRune_cons h hc]

/-- A digit read inside the unicode escape at the end of the stream fails
with the EOF message positioned at the original backslash. -/
theorem readEscDigit_nil (p : Position) {s : Src} (h : s.runes = [])
    (hs : s.srcErr = none) :
    readEscDigit s p =
      (.error (.positional p.Row p.Col "unexpected EOF reading unicode escape"),
        { s with canUnread := false }) := by
  unfold readEscDigit
  rw [readRune_nil_eof h hs]

/-- The unicode escape transform after backslash-u with at least four more
runes available: all six raw runes are consumed, the position advances five
more columns, and the result is decided by strconv.Unquote on the four
runes. -/
theorem unicodeEscapeT_u4 (s : Src) (c : Char) (d1 d2 d3 d4 : Nat) (rest : List Nat)
    (hcr : c.Rune = 92) (hr : s.runes = 117 :: d1 :: d2 :: d3 :: d4 :: rest)
    (hc : 0 ≤ s.pos.Col) :
    unicodeEscapeT s c =
      ((match unquoteU4 d1 d2 d3 d4 with
        | none => .error (.positional c.Pos.Row c.Pos.Col
            ("error parsing unicode escaped rune " ++ escLiteral d1 d2 d3 d4
              ++ ": invalid syntax"))
        | some v => .ok { c with Rune := v }),
        { s with runes := rest, readRev := d4 :: d3 :: d2 :: d1 :: 117 :: s.readRev,
                 canUnread := true, pos := ⟨s.pos.Row, s.pos.Col + 5⟩ }) := by
  unfold unicodeEscapeT
  rw [if_neg (by simp [hcr])]
  rw [readRune_cons hr hc]
  dsimp only
  rw [if_neg (by decide)]
  rw [readEscDigit_cons c.Pos rfl (by show 0 ≤ s.pos.Col + 1; omega)]
  dsimp only
  rw [readEscDigit_cons c.Pos rfl (by show 0 ≤ s.pos.Col + 1 + 1; omega)]
  dsimp only
  rw [readEscDigit_cons c.Pos rfl (by show 0 ≤ s.pos.Col + 1 + 1 + 1; omega)]
  dsimp only
  rw [readEscDigit_cons c.Pos rfl (by show 0 ≤ s.pos.Col + 1 + 1 + 1 + 1; omega)]
  dsimp only
  rcases hq : unquoteU4 d1 d2 d3 d4 with _ | v <;>
    · dsimp only
      refine Prod.ext rfl ?_
      rw [show s.pos.Col + 1 + 1 + 1 + 1 + 1 = s.pos.Col + 5 from by omega]

/-- C4 (amended), unicode escape success: with the unicode-escape transform
installed, a backslash followed by `u` and four hexadecimal-digit runes
whose value is a valid (non-surrogate) code point is collapsed into one
Char whose rune is that code point, positioned at the initial backslash,
with the escaped flag left unchanged (false at the pipeline entry); the
source consumes all six raw runes. The source `aX` yields ('a',1,1),
('X',1,2), then end of stream, with both Chars unescaped. -/
theorem unicode_escape_success :
    (∀ (s : Src) (c : Char) (d1 d2 d3 d4 v : Nat) (rest : List Nat),
      c.Rune = 92 → s.runes = 117 :: d1 :: d2 :: d3 :: d4 :: rest → 0 ≤ s.pos.Col →
      unquoteU4 d1 d2 d3 d4 = some v →
      unicodeEscapeT s c =
        (.ok { c with Rune := v },
          { s with runes := rest, readRev := d4 :: d3 :: d2 :: d1 :: 117 :: s.readRev,
                   canUnread := true, pos := ⟨s.pos.Row, s.pos.Col + 5⟩ })) ∧
    (runOps (mkReader [97, 92, 117, 48, 48, 53, 56] none [.unicodeEscape])
        [.next, .consume, .next, .consume, .next]).2 =
      [.char ⟨97, ⟨1, 1⟩, false⟩, .unit, .char ⟨88, ⟨1, 2⟩, false⟩, .unit, .err .eof] := by
  constructor
  · intro s c d1 d2 d3 d4 v rest hcr hr hc hq
    rw [unicodeEscapeT_u4 s c d1 d2 d3 d4 rest hcr hr hc, hq]
  · rfl

/-- Witness for C4's amended theorem at backslash-u-0-0-5-8. -/
theorem unicode_escape_success_witness :
    unicodeEscapeT ⟨[117, 48, 48, 53, 56], [92], true, none, ⟨1, 3⟩⟩ ⟨92, ⟨1, 2⟩, false⟩ =
      (.ok ⟨88, ⟨1, 2⟩, false⟩,
        ⟨[], [56, 53, 48, 48, 117, 92], true, none, ⟨1, 8⟩⟩) :=
  unicode_escape_success.1 ⟨[117, 48, 48, 53, 56], [92], true, none, ⟨1, 3⟩⟩ ⟨92, ⟨1, 2⟩, false⟩
    48 48 53 56 88 [] rfl rfl (by decide) rfl

def surR0 : Reader := mkReader [92, 117, 68, 56, 48, 48] none [.unicodeEscape]

/-- Counterexample to C4 as stated: the source consisting of a backslash,
`u` and the four hexadecimal-digit runes D800 does not produce a Char with
rune 0xD800 at the backslash position; `Next` instead returns the strconv
syntax error, because 0xD800 is a UTF-16 surrogate half, which
strconv.Unquote rejects. -/
theorem unicode_escape_surrogate :
    (hexVal 68).isSome = true ∧ (hexVal 56).isSome = true ∧ (hexVal 48).isSome = true ∧
      surR0.Next =
        (.error (.positional 1 1
          "error parsing unicode escaped rune '\\uD800': invalid syntax"),
          ⟨⟨[], [48, 48, 56, 68, 117, 92], true, none, ⟨1, 7⟩⟩, ⟨[], 0, 0⟩, [.unicodeEscape]⟩) :=
  ⟨rfl, rfl, rfl, rfl⟩

/-- C5, unicode escape failure: with the unicode-escape transform
installed, after backslash-`u`, if any of the four following runes is not a
hexadecimal digit then `Next` fails with the error message naming the
literal as typed, "error parsing unicode escaped rune '\uXXXX': invalid
syntax", positioned at the original backslash; and if the stream ends
before the four runes are read, `Next` fails with "unexpected EOF reading
unicode escape", also positioned at the original backslash. The source
`a\u005X` yields Char ('a',1,1) and then that syntax error at (1,2). -/
theorem unicode_escape_failure :
    (∀ (s : Src) (c : Char) (d1 d2 d3 d4 : Nat) (rest : List Nat),
      c.Rune = 92 → s.runes = 117 :: d1 :: d2 :: d3 :: d4 :: rest → 0 ≤ s.pos.Col →
      (hexVal d1 = none ∨ hexVal d2 = none ∨ hexVal d3 = none ∨ hexVal d4 = none) →
      (unicodeEscapeT s c).1 =
        .error (.positional c.Pos.Row c.Pos.Col
          ("error parsing unicode escaped rune " ++ escLiteral d1 d2 d3 d4
            ++ ": invalid syntax"))) ∧
    (∀ (s : Src) (c : Char) (ds : List Nat),
      c.Rune = 92 → s.runes = 117 :: ds → ds.length < 4 → s.srcErr = none → 0 ≤ s.pos.Col →
      (unicodeEscapeT s c).1 =
        .error (.positional c.Pos.Row c.Pos.Col "unexpected EOF reading unicode escape")) ∧
    (runOps (mkReader [97, 92, 117, 48, 48, 53, 88] none [.unicodeEscape])
        [.next, .consume, .next]).2 =
      [.char ⟨97, ⟨1, 1⟩, false⟩, .unit,
        .err (.positional 1 2 "error parsing unicode escaped rune '\\u005X': invalid syntax")] := by
  refine ⟨?_, ?_, rfl⟩
  · intro s c d1 d2 d3 d4 rest hcr hr hc hnon
    have hq : unquoteU4 d1 d2 d3 d4 = none := by
      unfold unquoteU4
      rcases h1 : hexVal d1 with _ | a <;> rcases h2 : hexVal d2 with _ | b <;>
        rcases h3 : hexVal d3 with _ | e3 <;> rcases h4 : hexVal d4 with _ | e4 <;>
        simp_all
    rw [unicodeEscapeT_u4 s c d1 d2 d3 d4 rest hcr hr hc, hq]
  · intro s c ds hcr hr hlen hs hc
    unfold unicodeEscapeT
    rw [if_neg (by simp [hcr])]
    rw [readRune_cons hr hc]
    dsimp only
    rw [if_neg (by decide)]
    rcases ds with _ | ⟨e1, ds⟩
    · rw [hs, readEscDigit_nil c.Pos rfl rfl]
    · rw [readEscDigit_cons c.Pos rfl (by show 0 ≤ s.pos.Col + 1; omega)]
      dsimp only
      rcases ds with _ | ⟨e2, ds⟩
      · rw [hs, readEscDigit_nil c.Pos rfl rfl]
      · rw [readEscDigit_cons c.Pos rfl (by show 0 ≤ s.pos.Col + 1 + 1; omega)]
        dsimp only
        rcases ds with _ | ⟨e3, ds⟩
        · rw [hs, readEscDigit_nil c.Pos rfl rfl]
        · rw [readEscDigit_cons c.Pos rfl (by show 0 ≤ s.pos.Col + 1 + 1 + 1; omega)]
          dsimp only
          rcases ds with _ | ⟨e4, ds⟩
          · rw [hs, readEscDigit_nil c.Pos rfl rfl]
          · simp only [List.length_cons] at hlen
            exact absurd hlen (by omega)

/-- Witness for C5 at the concrete digits 0-0-5-X and at a truncated
escape. -/
theorem unicode_escape_failure_witness :
    (unicodeEscapeT ⟨[117, 48, 48, 53, 88], [92], true, none, ⟨1, 3⟩⟩ ⟨92, ⟨1, 2⟩, false⟩).1 =
      .error (.positional 1 2 "error parsing unicode escaped rune '\\u005X': invalid syntax") ∧
    (unicodeEscapeT ⟨[117, 48], [92], true, none, ⟨1, 3⟩⟩ ⟨92, ⟨1, 2⟩, false⟩).1 =
      .error (.positional 1 2 "unexpected EOF reading unicode escape") :=
  ⟨unicode_escape_failure.1 ⟨[117, 48, 48, 53, 88], [92], true, none, ⟨1, 3⟩⟩ ⟨92, ⟨1, 2⟩, false⟩
      48 48 53 88 [] rfl rfl (by decide) (Or.inr (Or.inr (Or.inr rfl))),
    unicode_escape_failure.2.1 ⟨[117, 48], [92], true, none, ⟨1, 3⟩⟩ ⟨92, ⟨1, 2⟩, false⟩
      [48] rfl rfl (by decide) rfl (by decide)⟩

/-- C7, push-back restores the stream exactly: when the unicode-escape
transform reads the rune after a backslash and it is not `u`, it pushes the
rune back and emits the backslash Char unchanged; the resulting source
state has the same pending runes, the same push-back stack and the same
position as before the transform ran (only the bufio one-read window is
closed), so the pushed-back rune is returned by the next raw read at its
original position. The source `a\X` yields ('a',1,1), the backslash at
(1,2), ('X',1,3), then end of stream. -/
theorem unicode_escape_pushback :
    (∀ (s : Src) (c : Char) (x : Nat) (rest : List Nat),
      c.Rune = 92 → s.runes = x :: rest → x ≠ 117 → 0 ≤ s.pos.Col →
      unicodeEscapeT s c = (.ok c, { s with canUnread := false })) ∧
    (runOps (mkReader [97, 92, 88] none [.unicodeEscape])
        [.next, .consume, .next, .consume, .next, .consume, .next]).2 =
      [.char ⟨97, ⟨1, 1⟩, false⟩, .unit, .char ⟨92, ⟨1, 2⟩, false⟩, .unit,
        .char ⟨88, ⟨1, 3⟩, false⟩, .unit, .err .eof] := by
  refine ⟨?_, rfl⟩
  intro s c x rest hcr hr hx hc
  unfold unicodeEscapeT
  rw [if_neg (by simp [hcr])]
  rw [readRune_cons hr hc]
  dsimp only
  rw [if_pos hx]
  unfold Src.unreadRune
  dsimp only
  rw [step_pos (-1) (by show 0 ≤ s.pos.Col + 1 + -1; omega)]
  simp [← hr]

/-- Witness for C7 at a concrete backslash followed by X. -/
theorem unicode_escape_pushback_witness :
    unicodeEscapeT ⟨[88], [92, 97], true, none, ⟨1, 3⟩⟩ ⟨92, ⟨1, 2⟩, false⟩ =
      (.ok ⟨92, ⟨1, 2⟩, false⟩, ⟨[88], [92, 97], false, none, ⟨1, 3⟩⟩) :=
  unicode_escape_pushback.1 ⟨[88], [92, 97], true, none, ⟨1, 3⟩⟩ ⟨92, ⟨1, 2⟩, false⟩ 88 []
    rfl rfl (by decide) (by decide)

/-- C6, rune escape: with the rune-escape transform installed with mapping
m, a backslash followed by rune k is emitted as one Char positioned at the
backslash with the escaped flag set, whose rune is m's value at k when k is
a key of m and k itself otherwise; if the stream ends immediately after the
backslash, the transform fails with "unexpected EOF reading rune escape"
positioned at the backslash. The source `a\a\b c` with map {a maps to x, b
maps to y} yields ('a',1,1) unescaped, ('x',1,2) escaped, ('y',1,4)
escaped, (' ',1,6) unescaped. -/
theorem rune_escape_spec :
    (∀ (m : List (Nat × Nat)) (s : Src) (c : Char) (k : Nat) (rest : List Nat),
      c.Rune = 92 → s.runes = k :: rest → 0 ≤ s.pos.Col →
      runeEscapeT m s c =
        (.ok { c with Rune := (lookupEsc m k).getD k, Escaped := true },
          { s with runes := rest, readRev := k :: s.readRev, canUnread := true,
                   pos := ⟨s.pos.Row, s.pos.Col + 1⟩ })) ∧
    (∀ (m : List (Nat × Nat)) (s : Src) (c : Char),
      c.Rune = 92 → s.runes = [] → s.srcErr = none →
      runeEscapeT m s c =
        (.error (.positional c.Pos.Row c.Pos.Col "unexpected EOF reading rune escape"),
          { s with canUnread := false })) ∧
    (runOps (mkReader [97, 92, 97, 92, 98, 32, 99] none [.runeEscape [(97, 120), (98, 121)]])
        [.next, .consume, .next, .consume, .next, .consume, .next, .consume]).2 =
      [.char ⟨97, ⟨1, 1⟩, false⟩, .unit, .char ⟨120, ⟨1, 2⟩, true⟩, .unit,
        .char ⟨121, ⟨1, 4⟩, true⟩, .unit, .char ⟨32, ⟨1, 6⟩, false⟩, .unit] := by
  refine ⟨?_, ?_, rfl⟩
  · intro m s c k rest hcr hr hc
    unfold runeEscapeT
    rw [if_neg (by simp [hcr])]
    rw [readRune_cons hr hc]
  · intro m s c hcr hr hs
    unfold runeEscapeT
    rw [if_neg (by simp [hcr])]
    rw [readRune_nil_eof hr hs]

/-- Witness for C6 at a concrete unmapped escaped rune. -/
theorem rune_escape_spec_witness :
    runeEscapeT [(97, 120)] ⟨[98], [92], true, none, ⟨1, 3⟩⟩ ⟨92, ⟨1, 2⟩, false⟩ =
      (.ok ⟨98, ⟨1, 2⟩, true⟩, ⟨[], [98, 92], true, none, ⟨1, 4⟩⟩) :=
  rune_escape_spec.1 [(97, 120)] ⟨[98], [92], true, none, ⟨1, 3⟩⟩ ⟨92, ⟨1, 2⟩, false⟩ 98 []
    rfl rfl (by decide)

/-- `readRune` on an exhausted source with a pending I/O error reports
that error, changing only the push-back window. -/
theorem readRune_nil_fail {s : Src} {m : String} (h : s.runes = []) (hs : s.srcErr = some m) :
    s.readRune = (.fail m s.pos, { s with canUnread := false }) := by
  unfold Src.readRune
  rw [h]
  dsimp only
  rw [hs]

/-- A raw read never moves the position backwards, and keeps the column
non-negative. -/
theorem readRune_mono (s : Src) (hc : 0 ≤ s.pos.Col) :
    posLe s.pos (s.readRune).2.pos ∧ 0 ≤ (s.readRune).2.pos.Col := by
  rcases hr : s.runes with _ | ⟨ru, rest⟩
  · rcases hs : s.srcErr with _ | m
    · rw [readRune_nil_eof hr hs]
      exact ⟨posLe_refl _, hc⟩
    · rw [readRune_nil_fail hr hs]
      exact ⟨posLe_refl _, hc⟩
  · rw [readRune_cons hr hc]
    exact ⟨Or.inl (Or.inr ⟨rfl, by show s.pos.Col < s.pos.Col + 1; omega⟩),
      by show 0 ≤ s.pos.Col + 1; omega⟩

/-- A successful raw read returns the pre-read position and advances the
column by exactly one. -/
theorem readRune_ok_pos {s : Src} {ru : Nat} {p : Position} {s2 : Src}
    (hc : 0 ≤ s.pos.Col) (heq : s.readRune = (.ok ru p, s2)) :
    p = s.pos ∧ s2.pos = ⟨s.pos.Row, s.pos.Col + 1⟩ := by
  rcases hr : s.runes with _ | ⟨x, rest⟩
  · rcases hs : s.srcErr with _ | m <;>
      [rw [readRune_nil_eof hr hs] at heq; rw [readRune_nil_fail hr hs] at heq] <;>
      simp at heq
  · rw [readRune_cons hr hc] at heq
    simp only [Prod.mk.injEq, ReadResult.ok.injEq] at heq
    exact ⟨heq.1.2.symm, by rw [← heq.2]⟩

/-- `unreadRune` retreats the column by exactly one (when the column stays
non-negative), whether or not the bufio push-back succeeds. -/
theorem unreadRune_pos (s : Src) (hc : 0 ≤ s.pos.Col + -1) :
    (s.unreadRune).2.pos = ⟨s.pos.Row, s.pos.Col + -1⟩ := by
  unfold Src.unreadRune
  rcases hcu : s.canUnread with _ | _ <;> rcases hrv : s.readRev with _ | ⟨a, b⟩ <;> dsimp only
  · rw [step_pos (-1) hc]
  · rw [step_pos (-1) hc]
  · rw [step_pos (-1) hc]
  · rw [step_pos (s := { s with runes := a :: s.runes, readRev := b, canUnread := false }) (-1) hc]

/-- The reader state left by a digit read is the one left by the
underlying raw read. -/
theorem readEscDigit_snd (s : Src) (p : Position) :
    (readEscDigit s p).2 = (s.readRune).2 := by
  unfold readEscDigit
  split <;> rename_i heq <;> exact (congrArg Prod.snd heq).symm

/-- A digit read never moves the position backwards and keeps the column
non-negative. -/
theorem readEscDigit_mono (s : Src) (p : Position) (hc : 0 ≤ s.pos.Col) :
    posLe s.pos (readEscDigit s p).2.pos ∧ 0 ≤ (readEscDigit s p).2.pos.Col := by
  rw [readEscDigit_snd]
  exact readRune_mono s hc

/-- A transformer never changes the position carried by the Char it
emits. -/
theorem transformer_charPos (t : Transformer) (s : Src) (c : Char) {c1 : Char}
    (h : (t.run s c).1 = Except.ok c1) : c1.Pos = c.Pos := by
  cases t <;> simp only [Transformer.run] at h
  · unfold normalizeNewlineT at h
    repeat' split at h
    all_goals try dsimp only at h
    all_goals first
      | (injection h with h2; subst h2; rfl)
      | simp_all
  · unfold unicodeEscapeT at h
    repeat' split at h
    all_goals try dsimp only at h
    all_goals first
      | (injection h with h2; subst h2; rfl)
      | simp_all
  · unfold runeEscapeT at h
    repeat' split at h
    all_goals try dsimp only at h
    all_goals first
      | (injection h with h2; subst h2; rfl)
      | simp_all

/-- A transformer never moves the source position backwards in row-major
order, and keeps the column non-negative. -/
theorem transformer_mono (t : Transformer) (s : Src) (c : Char) (hc : 0 ≤ s.pos.Col) :
    posLe s.pos (t.run s c).2.pos ∧ 0 ≤ (t.run s c).2.pos.Col := by
  have hlt_nl : ∀ q : Position, q.Row = s.pos.Row + 1 → posLt s.pos q :=
    fun q hq => Or.inl (by omega)
  cases t <;> simp only [Transformer.run]
  · unfold normalizeNewlineT
    by_cases h10 : c.Rune = 10
    · rw [if_pos h10]
      exact ⟨Or.inl (hlt_nl _ rfl), by show (0 : Int) ≤ 1; decide⟩
    · rw [if_neg h10]
      by_cases h13 : c.Rune = 13
      · rw [if_pos h13]
        have hc1 : (0 : Int) ≤ (s.newline).pos.Col := by show (0 : Int) ≤ 1; decide
        split <;> rename_i heq
        · have hm := readRune_mono s.newline hc1
          rw [heq] at hm
          exact ⟨Or.inl (posLt_of_lt_of_le (hlt_nl s.newline.pos rfl) hm.1), hm.2⟩
        · have hm := readRune_mono s.newline hc1
          rw [heq] at hm
          exact ⟨Or.inl (posLt_of_lt_of_le (hlt_nl s.newline.pos rfl) hm.1), hm.2⟩
        · rename_i ru p s2
          have hop := readRune_ok_pos hc1 heq
          have hrow2 : s2.pos.Row = s.pos.Row + 1 := by rw [hop.2]; simp [Src.newline]
          have hcol2 : s2.pos.Col = 1 + 1 := by rw [hop.2]; simp [Src.newline]
          split
          · rw [step_pos (-1) (by omega)]
            dsimp only
            exact ⟨Or.inl (hlt_nl _ hrow2), by omega⟩
          · split <;> rename_i heq2 <;>
              · have hup := unreadRune_pos s2 (by omega)
                rw [heq2] at hup
                dsimp only at hup
                rw [hup]
                exact ⟨Or.inl (hlt_nl _ hrow2), by dsimp only; omega⟩
      · rw [if_neg h13]
        exact ⟨posLe_refl _, hc⟩
  · unfold unicodeEscapeT
    by_cases h92 : c.Rune ≠ 92
    · rw [if_pos h92]
      exact ⟨posLe_refl _, hc⟩
    · rw [if_neg h92]
      split <;> rename_i heq
      · have hm := readRune_mono s hc
        rw [heq] at hm
        exact hm
      · have hm := readRune_mono s hc
        rw [heq] at hm
        exact hm
      · rename_i ru p s1
        have hop := readRune_ok_pos hc heq
        have hrow1 : s1.pos.Row = s.pos.Row := by rw [hop.2]
        have hcol1 : s1.pos.Col = s.pos.Col + 1 := by rw [hop.2]
        have hs1c : 0 ≤ s1.pos.Col := by omega
        have hs1le : posLe s.pos s1.pos := Or.inl (Or.inr ⟨hrow1.symm, by omega⟩)
        split
        · split <;> rename_i heq2 <;>
            · have hup := unreadRune_pos s1 (by omega)
              rw [heq2] at hup
              dsimp only at hup
              rw [hup]
              refine ⟨Or.inr ?_, by dsimp only; omega⟩
              have he : (⟨s1.pos.Row, s1.pos.Col + -1⟩ : Position) = s.pos := by
                rw [hrow1, show s1.pos.Col + -1 = s.pos.Col from by omega]
              exact he.symm
        · have h1 := readEscDigit_mono s1 c.Pos hs1c
          split <;> rename_i heq1 <;> rw [heq1] at h1
          · exact ⟨posLe_trans hs1le h1.1, h1.2⟩
          · rename_i d1 s2
            have h2 := readEscDigit_mono s2 c.Pos h1.2
            split <;> rename_i heq2 <;> rw [heq2] at h2
            · exact ⟨posLe_trans hs1le (posLe_trans h1.1 h2.1), h2.2⟩
            · rename_i d2 s3
              have h3 := readEscDigit_mono s3 c.Pos h2.2
              split <;> rename_i heq3 <;> rw [heq3] at h3
              · exact ⟨posLe_trans hs1le (posLe_trans h1.1 (posLe_trans h2.1 h3.1)), h3.2⟩
              · rename_i d3 s4
                have h4 := readEscDigit_mono s4 c.Pos h3.2
                split <;> rename_i heq4 <;> rw [heq4] at h4
                · exact ⟨posLe_trans hs1le (posLe_trans h1.1 (posLe_trans h2.1
                    (posLe_trans h3.1 h4.1))), h4.2⟩
                · rename_i d4 s5
                  have hfin : posLe s.pos s5.pos ∧ 0 ≤ s5.pos.Col :=
                    ⟨posLe_trans hs1le (posLe_trans h1.1 (posLe_trans h2.1
                      (posLe_trans h3.1 h4.1))), h4.2⟩
                  split
                  · exact hfin
                  · exact hfin
  · unfold runeEscapeT
    by_cases h92 : c.Rune ≠ 92
    · rw [if_pos h92]
      exact ⟨posLe_refl _, hc⟩
    · rw [if_neg h92]
      split <;> rename_i heq <;> have hm := readRune_mono s hc <;> rw [heq] at hm <;> exact hm


/-- The transformer pipeline never moves the source position backwards and
keeps the column non-negative. -/
theorem applyTransforms_mono (ts : List Transformer) (s : Src) (c : Char) (hc : 0 ≤ s.pos.Col) :
    posLe s.pos (applyTransforms ts s c).2.pos ∧ 0 ≤ (applyTransforms ts s c).2.pos.Col := by
  induction ts generalizing s c with
  | nil => exact ⟨posLe_refl _, hc⟩
  | cons t ts ih =>
    unfold applyTransforms
    split <;> rename_i heq
    · rename_i c1 s1
      have hm := transformer_mono t s c hc
      rw [heq] at hm
      have hrest := ih s1 c1 hm.2
      exact ⟨posLe_trans hm.1 hrest.1, hrest.2⟩
    · have hm := transformer_mono t s c hc
      rw [heq] at hm
      exact hm

/-- The transformer pipeline never changes the position carried by the
Char it emits. -/
theorem applyTransforms_charPos (ts : List Transformer) (s : Src) (c : Char) {c1 : Char}
    (h : (applyTransforms ts s c).1 = .ok c1) : c1.Pos = c.Pos := by
  induction ts generalizing s c with
  | nil =>
    simp only [applyTransforms] at h
    injection h with h2
    rw [← h2]
  | cons t ts ih =>
    unfold applyTransforms at h
    split at h <;> rename_i heq
    · rename_i c2 s1
      have hcp := transformer_charPos t s c (congrArg Prod.fst heq)
      rw [ih _ _ h, hcp]
    · dsimp only at h
      exact absurd h (by simp)

/-- A successful `bufferChar` appends one Char whose position is the
pre-call source position, strictly below the new source position; the
column stays non-negative. -/
theorem bufferChar_ok_pos {r r1 : Reader} (hc : 0 ≤ r.src.pos.Col)
    (h : r.bufferChar = (none, r1)) :
    ∃ c, r1.buffer = r.buffer.Write c ∧ c.Pos = r.src.pos ∧ posLt c.Pos r1.src.pos ∧
      0 ≤ r1.src.pos.Col := by
  unfold Reader.bufferChar at h
  split at h <;> rename_i heq
  · simp at h
  · simp at h
  · rename_i ru p s1
    have hop := readRune_ok_pos hc heq
    split at h <;> rename_i heq2
    · simp at h
    · rename_i c2 s2
      simp only [Prod.mk.injEq] at h
      obtain ⟨-, hr1⟩ := h
      subst hr1
      have hcp : c2.Pos = p :=
        applyTransforms_charPos r.transformers s1 ⟨ru, p, false⟩ (by rw [heq2])
      have hm := applyTransforms_mono r.transformers s1 ⟨ru, p, false⟩
        (by rw [hop.2]; show 0 ≤ r.src.pos.Col + 1; omega)
      rw [heq2] at hm
      refine ⟨c2, rfl, by rw [hcp, hop.1], ?_, hm.2⟩
      rw [hcp, hop.1]
      have hlt : posLt r.src.pos s1.pos := by
        rw [hop.2]
        exact Or.inr ⟨rfl, by show r.src.pos.Col < r.src.pos.Col + 1; omega⟩
      exact posLt_of_lt_of_le hlt hm.1

/-- A failing `bufferChar` keeps the buffer, never moves the source
position backwards, and keeps the column non-negative. -/
theorem bufferChar_err_pos {r : Reader} {e : RdError} {r1 : Reader} (hc : 0 ≤ r.src.pos.Col)
    (h : r.bufferChar = (some e, r1)) :
    r1.buffer = r.buffer ∧ posLe r.src.pos r1.src.pos ∧ 0 ≤ r1.src.pos.Col := by
  unfold Reader.bufferChar at h
  split at h <;> rename_i heq
  · simp only [Prod.mk.injEq] at h
    obtain ⟨-, hr1⟩ := h
    subst hr1
    have hm := readRune_mono r.src hc
    rw [heq] at hm
    exact ⟨rfl, hm.1, hm.2⟩
  · simp only [Prod.mk.injEq] at h
    obtain ⟨-, hr1⟩ := h
    subst hr1
    have hm := readRune_mono r.src hc
    rw [heq] at hm
    exact ⟨rfl, hm.1, hm.2⟩
  · rename_i ru p s1
    split at h <;> rename_i heq2
    · rename_i e2 s2
      simp only [Prod.mk.injEq] at h
      obtain ⟨-, hr1⟩ := h
      subst hr1
      have hop := readRune_ok_pos hc heq
      have hm := applyTransforms_mono r.transformers s1 ⟨ru, p, false⟩
        (by rw [hop.2]; show 0 ≤ r.src.pos.Col + 1; omega)
      rw [heq2] at hm
      have hle : posLe r.src.pos s1.pos := by
        rw [hop.2]
        exact Or.inl (Or.inr ⟨rfl, by show r.src.pos.Col < r.src.pos.Col + 1; omega⟩)
      exact ⟨rfl, posLe_trans hle hm.1, hm.2⟩
    · simp at h

/-- The reader state after `Next` is the state after the pull phase: the
front-returning phase never changes it. -/
theorem next_snd (r : Reader) :
    (r.Next).2 = (if r.buffer.Buffered = 0 then r.bufferChar else (none, r)).2 := by
  unfold Reader.Next
  split <;> rename_i heq
  · rw [heq]
  · split <;> rw [heq]

/-- An element of a list's optional last is an element of the list. -/
theorem mem_of_mem_getLast {α : Type} {l : List α} {x : α} (h : x ∈ l.getLast?) : x ∈ l := by
  obtain ⟨hne, rfl⟩ := List.mem_getLast?_eq_getLast h
  exact List.getLast_mem hne

/-- The positions of the Chars pending in the lookahead buffer (produced
but not yet consumed), oldest first. -/
def pendingPos (r : Reader) : List Position :=
  (r.buffer.elems.drop r.buffer.cursor).map Char.Pos

/-- The run invariant for consume monotonicity: the positions already
consumed (`acc`) followed by the pending positions form a strictly
increasing row-major chain, every one of them lies strictly before the
current source position, the column is non-negative, and the buffer cursor
is within the buffer. -/
def TraceInv (acc : List Position) (r : Reader) : Prop :=
  List.Chain' posLt (acc ++ pendingPos r) ∧
    (∀ p ∈ acc ++ pendingPos r, posLt p r.src.pos) ∧
    0 ≤ r.src.pos.Col ∧
    r.buffer.cursor ≤ r.buffer.elems.length

/-- A `Next` call preserves the trace invariant with the same consumed
prefix. -/
theorem next_preserves_inv {acc : List Position} {r : Reader} (hInv : TraceInv acc r) :
    TraceInv acc (r.Next).2 := by
  obtain ⟨hchain, hdom, hcol, hcur⟩ := hInv
  rw [next_snd]
  by_cases hb : r.buffer.Buffered = 0
  · rw [if_pos hb]
    rcases hbc : r.bufferChar with ⟨oe, r1⟩
    match oe with
    | some e =>
      obtain ⟨hbuf, hle, hcol1⟩ := bufferChar_err_pos hcol hbc
      refine ⟨?_, ?_, hcol1, ?_⟩
      · show List.Chain' posLt (acc ++ pendingPos r1)
        rw [show pendingPos r1 = pendingPos r from by unfold pendingPos; rw [hbuf]]
        exact hchain
      · intro p hp
        rw [show pendingPos r1 = pendingPos r from by unfold pendingPos; rw [hbuf]] at hp
        exact posLt_of_lt_of_le (hdom p hp) hle
      · rw [hbuf]
        exact hcur
    | none =>
      obtain ⟨c, hbuf, hcpos, hlt, hcol1⟩ := bufferChar_ok_pos hcol hbc
      have hpend : pendingPos r1 = pendingPos r ++ [c.Pos] := by
        unfold pendingPos
        rw [hbuf]
        unfold Buffer.Write
        dsimp only
        rw [List.drop_append_of_le_length hcur, List.map_append]
        rfl
      have hdomc : ∀ p ∈ acc ++ pendingPos r, posLt p c.Pos := by
        rw [hcpos]
        exact hdom
      refine ⟨?_, ?_, hcol1, ?_⟩
      · show List.Chain' posLt (acc ++ pendingPos r1)
        rw [hpend, ← List.append_assoc]
        rw [List.chain'_append]
        refine ⟨hchain, List.chain'_singleton _, ?_⟩
        intro x hx y hy
        simp only [List.head?_cons, Option.mem_def, Option.some.injEq] at hy
        subst hy
        exact hdomc x (mem_of_mem_getLast hx)
      · intro p hp
        rw [hpend, ← List.append_assoc] at hp
        rcases List.mem_append.mp hp with hp1 | hp2
        · exact posLt_trans (hdomc p hp1) hlt
        · simp only [List.mem_singleton] at hp2
          subst hp2
          exact hlt
      · rw [hbuf]
        unfold Buffer.Write
        simp only [List.length_append, List.length_cons, List.length_nil]
        omega
  · rw [if_neg hb]
    exact ⟨hchain, hdom, hcol, hcur⟩

/-- A `Consume` of a present front element moves that element from the
pending part to the consumed prefix, preserving the invariant. -/
theorem consume_preserves_inv {acc : List Position} {r : Reader} {c : Char}
    (hInv : TraceInv acc r) (hfront : r.buffer.Next = some c) :
    TraceInv (acc ++ [c.Pos]) r.Consume := by
  obtain ⟨hchain, hdom, hcol, hcur⟩ := hInv
  unfold Buffer.Next at hfront
  rcases List.get?_eq_some.mp hfront with ⟨hlt, hget⟩
  have hsplit : pendingPos r = c.Pos :: pendingPos r.Consume := by
    unfold pendingPos Reader.Consume Buffer.Consume
    rw [if_pos hlt]
    dsimp only
    rw [List.drop_eq_get_cons hlt, hget]
    rfl
  have hflat : (acc ++ [c.Pos]) ++ pendingPos r.Consume = acc ++ pendingPos r := by
    rw [hsplit, List.append_assoc]
    rfl
  refine ⟨?_, ?_, hcol, ?_⟩
  · rw [hflat]
    exact hchain
  · intro p hp
    rw [hflat] at hp
    exact hdom p hp
  · show (r.buffer.Consume).cursor ≤ (r.buffer.Consume).elems.length
    unfold Buffer.Consume
    rw [if_pos hlt]
    exact hlt

/-- A `Consume` with no front element leaves the reader unchanged. -/
theorem consume_nofront {r : Reader} (hfront : r.buffer.Next = none) : r.Consume = r := by
  have hnlt : ¬ r.buffer.cursor < r.buffer.elems.length := by
    intro hlt
    unfold Buffer.Next at hfront
    rw [List.get?_eq_get hlt] at hfront
    simp at hfront
  unfold Reader.Consume Buffer.Consume
  rw [if_neg hnlt]

/-- The Chars consumed (at each `Consume` whose buffer has a front
element, that front element) along a run of Next/Consume calls, in
order. -/
def consumeTrace (r : Reader) : List Op → List Char
  | [] => []
  | .next :: ops => consumeTrace (r.Next).2 ops
  | .consume :: ops =>
    match r.buffer.Next with
    | some c => c :: consumeTrace r.Consume ops
    | none => consumeTrace r.Consume ops

/-- The consumed positions of a run extend the consumed prefix to a
strictly increasing row-major chain. -/
theorem consumeTrace_chain (ops : List Op) : ∀ (acc : List Position) (r : Reader),
    TraceInv acc r →
    List.Chain' posLt (acc ++ (consumeTrace r ops).map Char.Pos) := by
  induction ops with
  | nil =>
    intro acc r hInv
    simpa [consumeTrace] using (List.chain'_append.mp hInv.1).1
  | cons op ops ih =>
    intro acc r hInv
    cases op with
    | next =>
      exact ih acc (r.Next).2 (next_preserves_inv hInv)
    | consume =>
      unfold consumeTrace
      rcases hfront : r.buffer.Next with _ | c
      · dsimp only
        rw [consume_nofront hfront]
        exact ih acc r hInv
      · have := ih (acc ++ [c.Pos]) r.Consume (consume_preserves_inv hInv hfront)
        simpa [List.append_assoc] using this

/-- C9, consume monotonicity: over any run of Next/Consume calls on a
freshly built reader with any source, terminal condition and installed
transformers, the positions of the Chars returned by `Next` across
successive consumed elements strictly increase in row-major order (later
row, or same row with a later column); a transform-driven merge may make
the increase jump by more than one column, but never breaks the strict
increase. -/
theorem consume_monotone (runes : List Nat) (srcErr : Option String)
    (ts : List Transformer) (ops : List Op) :
    List.Chain' posLt ((consumeTrace (mkReader runes srcErr ts) ops).map Char.Pos) := by
  have h := consumeTrace_chain ops [] (mkReader runes srcErr ts)
    ⟨by simp [pendingPos, mkReader], by simp [pendingPos, mkReader],
      by show (0 : Int) ≤ 1; decide, by show (0 : Nat) ≤ 0; decide⟩
  simpa using h

/-- A failing `bufferChar` leaves the lookahead buffer untouched: the
error is returned before anything is written. -/
theorem bufferChar_err_buffer {r : Reader} {e : RdError} {r1 : Reader}
    (h : r.bufferChar = (some e, r1)) : r1.buffer = r.buffer := by
  unfold Reader.bufferChar at h
  split at h
  · simp only [Prod.mk.injEq] at h
    rw [← h.2]
  · simp only [Prod.mk.injEq] at h
    rw [← h.2]
  · split at h
    · simp only [Prod.mk.injEq] at h
      rw [← h.2]
    · simp at h

/-- A successful `bufferChar` appends exactly one Char to the buffer and
changes nothing else about it. -/
theorem bufferChar_ok {r r1 : Reader} (h : r.bufferChar = (none, r1)) :
    ∃ c s2, r1 = { r with src := s2, buffer := r.buffer.Write c } := by
  unfold Reader.bufferChar at h
  split at h
  · simp at h
  · simp at h
  · split at h
    · simp at h
    · rename_i c s2 heq
      simp only [Prod.mk.injEq] at h
      exact ⟨c, s2, h.2.symm⟩

/-- C10, error atomicity of the lookahead buffer: whenever `Next` returns
an error of any kind (end of stream, a positional source error, or a
transform error), the lookahead buffer of the resulting reader is exactly
the buffer before the call: no Char was appended and the read cursor is
unchanged, so previously buffered Chars remain intact. (The well-formedness
hypothesis, that the read cursor is within the buffer, holds in every
reachable reader state.) -/
theorem error_atomic {r : Reader} {e : RdError} {r1 : Reader}
    (hwf : r.buffer.cursor ≤ r.buffer.elems.length)
    (h : r.Next = (.error e, r1)) : r1.buffer = r.buffer := by
  unfold Reader.Next at h
  by_cases hb : r.buffer.Buffered = 0
  · rw [if_pos hb] at h
    rcases hbc : r.bufferChar with ⟨oe, r2⟩
    rw [hbc] at h
    match oe with
    | some e2 =>
      simp only [Prod.mk.injEq, Except.error.injEq] at h
      obtain ⟨-, hr⟩ := h
      subst hr
      exact bufferChar_err_buffer hbc
    | none =>
      exfalso
      obtain ⟨c0, s2, hr2⟩ := bufferChar_ok hbc
      have hc : r.buffer.cursor = r.buffer.elems.length := by
        unfold Buffer.Buffered at hb
        omega
      have hfront : r2.buffer.Next = some c0 := by
        rw [hr2]
        unfold Buffer.Next Buffer.Write
        simp only [hc]
        exact List.get?_concat_length _ _
      simp only [hfront] at h
      simp at h
  · rw [if_neg hb] at h
    simp only at h
    split at h
    · simp at h
    · simp only [Prod.mk.injEq, Except.error.injEq] at h
      rw [← h.2]

/-- Witness for C10's amended theorem at the concrete empty source. -/
theorem error_atomic_witness :
    (mkReader [] none []).buffer.cursor ≤ (mkReader [] none []).buffer.elems.length ∧
      (mkReader [] none []).Next = (.error .eof, mkReader [] none []) ∧
      (mkReader [] none []).buffer = (mkReader [] none []).buffer :=
  ⟨by decide, rfl, error_atomic (r := mkReader [] none []) (by decide) rfl⟩

/-- The reader with the buffer read cursor replaced (the effect of a
successful rollback to a snapshot taken at that cursor). -/
def withCursor (r : Reader) (n : Nat) : Reader :=
  { r with buffer := { r.buffer with cursor := n } }

/-- A run is good when every `Next` succeeds and every `Consume` consumes
a pending element (the documented next/consume usage pattern). -/
def goodRun : Reader → List Op → Bool
  | _, [] => true
  | r, .next :: ops =>
    match r.Next with
    | (.ok _, r1) => goodRun r1 ops
    | (.error _, _) => false
  | r, .consume :: ops =>
    decide (r.buffer.cursor < r.buffer.elems.length) && goodRun r.Consume ops

theorem runOps_cons_next (r : Reader) (ops : List Op) :
    runOps r (.next :: ops) =
      ((runOps (r.Next).2 ops).1,
        (match (r.Next).1 with
          | .ok c => Out.char c
          | .error e => Out.err e) :: (runOps (r.Next).2 ops).2) := by
  conv_lhs => rw [runOps]

theorem runOps_cons_consume (r : Reader) (ops : List Op) :
    runOps r (.consume :: ops) =
      ((runOps r.Consume ops).1, Out.unit :: (runOps r.Consume ops).2) := by
  conv_lhs => rw [runOps]

/-- `Consume` never changes the retained elements or the commit base. -/
theorem consume_elems (r : Reader) :
    (r.Consume).buffer.elems = r.buffer.elems ∧ (r.Consume).buffer.base = r.buffer.base := by
  unfold Reader.Consume Buffer.Consume
  split <;> exact ⟨rfl, rfl⟩

/-- `Next` only ever appends to the buffer, and never moves the cursor or
the commit base. -/
theorem next_buffer_shape (r : Reader) :
    (∃ t, (r.Next).2.buffer.elems = r.buffer.elems ++ t) ∧
      (r.Next).2.buffer.cursor = r.buffer.cursor ∧
      (r.Next).2.buffer.base = r.buffer.base := by
  rw [next_snd]
  by_cases hb : r.buffer.Buffered = 0
  · rw [if_pos hb]
    rcases hbc : r.bufferChar with ⟨oe, r1⟩
    match oe with
    | some e =>
      have hbuf := bufferChar_err_buffer hbc
      exact ⟨⟨[], by rw [hbuf, List.append_nil]⟩, by rw [hbuf], by rw [hbuf]⟩
    | none =>
      obtain ⟨c, s2, hr1⟩ := bufferChar_ok hbc
      subst hr1
      exact ⟨⟨[c], rfl⟩, rfl, rfl⟩
  · rw [if_neg hb]
    exact ⟨⟨[], by rw [List.append_nil]⟩, rfl, rfl⟩

/-- A run only ever appends to the buffer and never changes the commit
base. -/
theorem runOps_elems (ops : List Op) : ∀ r : Reader,
    ∃ t, (runOps r ops).1.buffer.elems = r.buffer.elems ++ t ∧
      (runOps r ops).1.buffer.base = r.buffer.base := by
  induction ops with
  | nil => exact fun r => ⟨[], by simp [runOps]⟩
  | cons op ops ih =>
    intro r
    cases op with
    | next =>
      rw [runOps_cons_next]
      obtain ⟨⟨t0, ht0⟩, hcur, hbase⟩ := next_buffer_shape r
      obtain ⟨t1, ht1, hb1⟩ := ih (r.Next).2
      exact ⟨t0 ++ t1, by rw [ht1, ht0, List.append_assoc], by rw [hb1, hbase]⟩
    | consume =>
      rw [runOps_cons_consume]
      obtain ⟨t, ht, hb⟩ := ih r.Consume
      obtain ⟨hce, hcb⟩ := consume_elems r
      exact ⟨t, by rw [ht, hce], by rw [hb, hcb]⟩

/-- A successful `Next` either returns the pending front element with the
reader unchanged, or (with no pending element) appends the returned Char
to the buffer with the cursor sitting at the old end. -/
theorem next_ok_cases {r r1 : Reader} {c : Char} (h : r.Next = (.ok c, r1)) :
    (r.buffer.Buffered ≠ 0 ∧ r1 = r ∧ r.buffer.Next = some c) ∨
    (r.buffer.Buffered = 0 ∧ r.buffer.cursor = r.buffer.elems.length ∧
      ∃ s2, r1 = { r with src := s2, buffer := r.buffer.Write c }) := by
  unfold Reader.Next at h
  by_cases hb : r.buffer.Buffered = 0
  · rw [if_pos hb] at h
    rcases hbc : r.bufferChar with ⟨oe, r2⟩
    rw [hbc] at h
    match oe with
    | some e => simp at h
    | none =>
      obtain ⟨c0, s2, hr2⟩ := bufferChar_ok hbc
      simp only at h
      split at h <;> rename_i hfront
      · rename_i c1
        simp only [Prod.mk.injEq, Except.ok.injEq] at h
        have hle : r.buffer.elems.length ≤ r.buffer.cursor := by
          unfold Buffer.Buffered at hb
          omega
        rw [hr2] at hfront
        unfold Buffer.Next Buffer.Write at hfront
        dsimp only at hfront
        rcases List.get?_eq_some.mp hfront with ⟨hlt2, -⟩
        simp only [List.length_append, List.length_cons, List.length_nil] at hlt2
        have hcl : r.buffer.cursor = r.buffer.elems.length := by omega
        have hc0 : c1 = c0 := by
          rw [hcl] at hfront
          rw [List.get?_concat_length] at hfront
          exact (Option.some.injEq .. ▸ hfront).symm
        refine Or.inr ⟨hb, hcl, s2, ?_⟩
        rw [← h.2, hr2, ← h.1, hc0]
      · simp at h
  · rw [if_neg hb] at h
    simp only at h
    split at h <;> rename_i hfront
    · rename_i c1
      simp only [Prod.mk.injEq, Except.ok.injEq] at h
      exact Or.inl ⟨hb, h.2.symm, by rw [hfront, h.1]⟩
    · simp at h

/-- Replaying a good run after resetting the read cursor to its value
before the run reproduces the same outcomes and ends in the same state,
without reading from the source. -/
theorem replay_run (ops : List Op) : ∀ r : Reader, goodRun r ops = true →
    runOps (withCursor (runOps r ops).1 r.buffer.cursor) ops = runOps r ops := by
  induction ops with
  | nil =>
    intro r _
    rfl
  | cons op ops ih =>
    intro r hg
    cases op with
    | next =>
      unfold goodRun at hg
      rcases hnext : r.Next with ⟨res, r1⟩
      rw [hnext] at hg
      match res, hg with
      | .ok c, hg =>
        simp only at hg
        rw [runOps_cons_next r ops, hnext]
        dsimp only
        obtain ⟨t1, helems1, -⟩ := runOps_elems ops r1
        rcases next_ok_cases hnext with ⟨hb, hr1, hfront⟩ | ⟨hb, hcl, s2, hr1⟩
        · rw [hr1] at helems1 hg ⊢
          have hclt : r.buffer.cursor < r.buffer.elems.length := by
            unfold Buffer.Next at hfront
            exact (List.get?_eq_some.mp hfront).1
          have hfront2 : (withCursor (runOps r ops).1 r.buffer.cursor).buffer.Next = some c := by
            unfold withCursor Buffer.Next
            dsimp only
            rw [helems1, List.get?_append hclt]
            exact hfront
          rw [runOps_cons_next, front_next hfront2]
          dsimp only
          rw [ih r hg]
        · have hcur1 : r1.buffer.cursor = r.buffer.cursor := by
            rw [hr1]
            rfl
          have helems0 : r1.buffer.elems = r.buffer.elems ++ [c] := by
            rw [hr1]
            rfl
          have hfront2 : (withCursor (runOps r1 ops).1 r.buffer.cursor).buffer.Next = some c := by
            unfold withCursor Buffer.Next
            dsimp only
            rw [helems1, helems0]
            rw [List.get?_append (by
              simp only [List.length_append, List.length_cons, List.length_nil]
              omega)]
            rw [hcl]
            exact List.get?_concat_length _ _
          rw [runOps_cons_next, front_next hfront2]
          dsimp only
          have hih := ih r1 hg
          rw [hcur1] at hih
          rw [hih]
    | consume =>
      unfold goodRun at hg
      simp only [Bool.and_eq_true, decide_eq_true_eq] at hg
      obtain ⟨hlt, hg⟩ := hg
      rw [runOps_cons_consume r ops]
      obtain ⟨t1, helems1, -⟩ := runOps_elems ops r.Consume
      obtain ⟨hce, -⟩ := consume_elems r
      rw [hce] at helems1
      have key : ∀ R : Reader, r.buffer.cursor < R.buffer.elems.length →
          (withCursor R r.buffer.cursor).Consume = withCursor R (r.buffer.cursor + 1) := by
        intro R hRlt
        unfold Reader.Consume withCursor Buffer.Consume
        dsimp only
        rw [if_pos hRlt]
      have hcons2 := key (runOps r.Consume ops).1 (by
        rw [helems1]
        simp only [List.length_append]
        omega)
      have hcur1 : (r.Consume).buffer.cursor = r.buffer.cursor + 1 := by
        unfold Reader.Consume Buffer.Consume
        rw [if_pos hlt]
      rw [runOps_cons_consume, hcons2]
      have hih := ih r.Consume hg
      rw [hcur1] at hih
      rw [hih]

/-- C1 (amended), rollback round-trip: from any reader state whose read
cursor is within the buffer, take a snapshot, run any sequence of
Next/Consume calls in which every Next succeeds and every Consume consumes
a pending element, and roll back to the snapshot: the rollback succeeds,
returning the post-run reader with only its read cursor reset, and
replaying the same call sequence returns exactly the same outcomes — the
same Chars with the same runes, positions and escaped flags — and ends in
exactly the same reader state as the first pass; since the end state
equals the first pass's end state, the replayed Chars come from the buffer
and the source and transform pipeline are not re-run. (When the first pass
contains a failing Next the round-trip can fail; see the counterexample.) -/
theorem rollback_roundtrip (r : Reader) (ops : List Op)
    (hwf : r.buffer.cursor ≤ r.buffer.elems.length)
    (hg : goodRun r ops = true) :
    (runOps r ops).1.Rollback r.State =
        .ok (withCursor (runOps r ops).1 r.buffer.cursor) ∧
      runOps (withCursor (runOps r ops).1 r.buffer.cursor) ops = runOps r ops := by
  refine ⟨?_, replay_run ops r hg⟩
  obtain ⟨t, helems, hbase⟩ := runOps_elems ops r
  unfold Reader.Rollback Reader.State mkState Buffer.Rollback Buffer.State
  dsimp only
  rw [if_neg (by simp)]
  rw [if_neg (by
    rw [hbase, helems]
    simp only [List.length_append, not_or, not_lt]
    omega)]
  rw [show r.buffer.base + r.buffer.cursor - (runOps r ops).1.buffer.base = r.buffer.cursor from
    by rw [hbase]; omega]
  rfl

def C1w0 : Reader := mkReader [97, 98] none []

def C1wops : List Op := [.next, .consume, .next]

/-- Witness for C1's amended theorem at the concrete source "ab". -/
theorem rollback_roundtrip_witness :
    (runOps C1w0 C1wops).1.Rollback C1w0.State =
        .ok (withCursor (runOps C1w0 C1wops).1 C1w0.buffer.cursor) ∧
      runOps (withCursor (runOps C1w0 C1wops).1 C1w0.buffer.cursor) C1wops =
        runOps C1w0 C1wops :=
  rollback_roundtrip C1w0 C1wops (by decide) (by decide)

def C1r0 : Reader := mkReader [92, 117, 90, 90, 90, 90, 97, 98] none [.unicodeEscape]

def C1ops : List Op := [.next, .next, .consume, .next]

def C1r2 : Reader :=
  match (runOps C1r0 C1ops).1.Rollback C1r0.State with
  | .ok r => r
  | .error _ => C1r0

/-- Counterexample to C1 as stated: for the source "\uZZZZab" with the
unicode escape transform, a snapshot at the start and the calls Next,
Next, Consume, Next, the first pass returns an error and then the Chars
'a' (1,7) and 'b' (1,8); after rolling back to the snapshot, replaying the
same calls returns the Chars 'a', 'a', 'b' — not the same sequence of
Chars — because the failing transform consumed source runes without
buffering any Char. -/
theorem rollback_replay_differs :
    (runOps C1r0 C1ops).1.Rollback C1r0.State = .ok C1r2 ∧
      charsOf (runOps C1r2 C1ops).2 ≠ charsOf (runOps C1r0 C1ops).2 :=
  ⟨rfl, by decide⟩

def atomR0 : Reader := mkReader [97, 92, 117, 90, 90, 90, 90] none [.unicodeEscape]

def atomOps : List Op := [.next, .consume, .next]

def atomR2 : Reader :=
  match (runOps atomR0 atomOps).1.Rollback atomR0.State with
  | .ok r => r
  | .error _ => atomR0

/-- Counterexample to C10 as stated: for the source "a\uZZZZ" with the
unicode escape transform, a snapshot at the start, the run Next, Consume,
Next observes the Char 'a' and then a transform error; after a rollback to
the snapshot, replaying the same calls reproduces the same Chars but ends
in a different error (end-of-stream instead of the escape syntax error),
because the failing transform had already consumed raw source runes. -/
theorem error_replay_differs :
    (runOps atomR0 atomOps).1.Rollback atomR0.State = .ok atomR2 ∧
      charsOf (runOps atomR2 atomOps).2 = charsOf (runOps atomR0 atomOps).2 ∧
      errsOf (runOps atomR2 atomOps).2 ≠ errsOf (runOps atomR0 atomOps).2 :=
  ⟨rfl, rfl, by decide⟩

/-- C2, peek idempotence: a `Next` that returned a Char, followed by
another `Next` with no intervening `Consume`, returns the identical Char
(same rune, position and escaped flag) and leaves the reader state, in
particular the lookahead buffer, untouched; by iterating, any number of
consecutive `Next` calls return that same Char. -/
theorem peek_idempotent {r r1 : Reader} {c : Char} (h : r.Next = (.ok c, r1)) :
    r1.Next = (.ok c, r1) :=
  front_next (next_ok_front h)

def peekW0 : Reader := mkReader [97] none []

def peekWC : Char := ⟨97, ⟨1, 1⟩, false⟩

def peekW1 : Reader :=
  ⟨⟨[], [97], true, none, ⟨1, 2⟩⟩, ⟨[⟨97, ⟨1, 1⟩, false⟩], 0, 0⟩, []⟩

/-- Witness for C2 at the concrete source "a". -/
theorem peek_idempotent_witness :
    peekW0.Next = (.ok peekWC, peekW1) ∧ peekW1.Next = (.ok peekWC, peekW1) :=
  ⟨rfl, peek_idempotent (r := peekW0) rfl⟩

end GoReader
